import Mathlib

/-!
Verification of the case-archival classifier of `jubrapp.py`.

The classifier `analisar_processos(df, col_processo, col_movimento, col_data,
movimentos_arquivamento)` selects the three mapped columns, coerces the case
identifier to text, parses the date column day-first (`pd.to_datetime(...,
dayfirst=True, errors='coerce')`), strips the movement text, drops rows whose
date failed to parse, groups by case identifier (pandas `groupby`, which sorts
the group keys), sorts each group by date descending and takes the first row
(`sort_values(by='data_movimento', ascending=False)` then `iloc[0]`), and
marks the case archived when any term is contained, case-insensitively, in
that row's movement text.

Modelling notes, each tied to the source:
* Cells are modelled as strings; `astype(str)` is the identity on them.
* `pd.to_datetime(s, dayfirst=True, errors='coerce')` is modelled on
  slash-separated numeric dates with four-digit years — the only shape the
  app's data and the specification exercise.  pandas prefers day-first and
  falls back to month-first when the day-first reading is not a calendar
  date; unparsable text yields `NaT`, modelled as `none`.
* pandas `sort_values(by, ascending=False)` computes an ascending argsort of
  the values and reverses the resulting indexer (`nargsort` in
  `pandas/core/sorting.py`).  For the small per-case groups at stake the
  underlying argsort is numpy's insertion sort, which is stable, so the
  model sorts ascending with a stable insertion sort and reverses.
* Python's `str.lower` is modelled by `String.toLower` (ASCII case folding,
  which covers every cased character the claims exercise), `str.strip` by
  `String.trim`, and `needle in hay` by `containsL` below.
* pandas `groupby` sorts group keys; Python compares strings by code point,
  modelled by `strLe`.
-/

/-- A calendar date as produced by the date parser (models a pandas
timestamp at day granularity, which is all the program uses). -/
structure Date where
  year : Nat
  month : Nat
  day : Nat
deriving DecidableEq, Repr

/-- Chronological order on dates (year, then month, then day). -/
def Date.le (a b : Date) : Prop :=
  a.year < b.year ∨
    (a.year = b.year ∧ (a.month < b.month ∨ (a.month = b.month ∧ a.day ≤ b.day)))

/-- Strict chronological order on dates. -/
def Date.lt (a b : Date) : Prop :=
  a.year < b.year ∨
    (a.year = b.year ∧ (a.month < b.month ∨ (a.month = b.month ∧ a.day < b.day)))

instance (a b : Date) : Decidable (Date.le a b) := by
  unfold Date.le; exact inferInstance

instance (a b : Date) : Decidable (Date.lt a b) := by
  unfold Date.lt; exact inferInstance

theorem Date.le_refl (a : Date) : Date.le a a := by
  unfold Date.le; omega

theorem Date.le_trans {a b c : Date} (h1 : Date.le a b) (h2 : Date.le b c) :
    Date.le a c := by
  unfold Date.le at *; omega

theorem Date.le_total (a b : Date) : Date.le a b ∨ Date.le b a := by
  unfold Date.le; omega

theorem Date.lt_of_not_le {a b : Date} (h : ¬ Date.le a b) : Date.lt b a := by
  unfold Date.le at h; unfold Date.lt; omega

theorem Date.not_le_of_lt {a b : Date} (h : Date.lt a b) : ¬ Date.le b a := by
  unfold Date.lt at h; unfold Date.le; omega

theorem Date.le_of_lt {a b : Date} (h : Date.lt a b) : Date.le a b := by
  unfold Date.lt at h; unfold Date.le; omega

/-- Gregorian leap-year rule, as used by pandas when validating `29/02`. -/
def isLeapYear (y : Nat) : Bool :=
  (y % 4 = 0 && y % 100 ≠ 0) || y % 400 = 0

/-- Number of days of month `m` of year `y`. -/
def daysInMonth (y m : Nat) : Nat :=
  if m = 2 then (if isLeapYear y then 29 else 28)
  else if m = 4 ∨ m = 6 ∨ m = 9 ∨ m = 11 then 30
  else 31

/-- Whether year `y`, month `m`, day `d` form a calendar date. -/
def validDMY (y m d : Nat) : Bool :=
  1 ≤ m && m ≤ 12 && 1 ≤ d && d ≤ daysInMonth y m

/-- Split a character list at every `'/'` (the behaviour of `str.split` on
the separator, kept structural so that it evaluates in the kernel). -/
def splitSlash : List Char → List (List Char)
  | [] => [[]]
  | c :: rest =>
    if c = '/' then [] :: splitSlash rest
    else
      match splitSlash rest with
      | [] => [[c]]
      | g :: gs => (c :: g) :: gs

/-- Value of a decimal digit character, if it is one. -/
def digit? (c : Char) : Option Nat :=
  if '0' ≤ c ∧ c ≤ '9' then some (c.toNat - 48) else none

/-- Accumulating decimal reading of a digit string. -/
def charsToNatAux : List Char → Nat → Option Nat
  | [], acc => some acc
  | c :: cs, acc =>
    match digit? c with
    | none => none
    | some d => charsToNatAux cs (10 * acc + d)

/-- Read a non-empty all-digit character list as a numeral (the semantics
of `int`-style numeral reading used when pandas parses date fields). -/
def charsToNat? : List Char → Option Nat
  | [] => none
  | c :: cs => charsToNatAux (c :: cs) 0

/-- Models `pd.to_datetime(s, dayfirst=True, errors='coerce')` on
slash-separated numeric date text: the first field is preferred as the day
(day-first convention); when that is not a calendar date pandas falls back
to reading the first field as the month; anything else coerces to `NaT`
(`none`). -/
def parseDateDayFirst (s : String) : Option Date :=
  match splitSlash s.data with
  | [fs, ss, ys] =>
    match charsToNat? fs, charsToNat? ss, charsToNat? ys with
    | some a, some b, some y =>
      if validDMY y b a then some ⟨y, b, a⟩
      else if validDMY y a b then some ⟨y, a, b⟩
      else none
    | _, _, _ => none
  | _ => none

/-- Zero-pad a numeral to two digits, as `%d` and `%m` of `strftime` do. -/
def pad2 (n : Nat) : String :=
  if n < 10 then "0" ++ toString n else toString n

/-- Zero-pad a numeral to four digits, as `%Y` of `strftime` does. -/
def pad4 (n : Nat) : String :=
  if n < 10 then "000" ++ toString n
  else if n < 100 then "00" ++ toString n
  else if n < 1000 then "0" ++ toString n
  else toString n

/-- Models `ts.strftime('%d/%m/%Y')`: day/month/year, zero-padded. -/
def strftimeDMY (d : Date) : String :=
  pad2 d.day ++ "/" ++ pad2 d.month ++ "/" ++ pad4 d.year

/-- Does character list `hay` start with `needle`?  (Helper for the
substring test below.) -/
def startsWithL : List Char → List Char → Bool
  | [], _ => true
  | _ :: _, [] => false
  | a :: as, b :: bs => a == b && startsWithL as bs

/-- Models Python's `needle in hay` on strings, at the character-list
level: `needle` occurs contiguously inside `hay`. -/
def containsL (needle hay : List Char) : Bool :=
  match hay with
  | [] => needle.isEmpty
  | _ :: rest => startsWithL needle hay || containsL needle rest

/-- ASCII lower-casing of one character (the case folding Python applies to
every cased character these data contain). -/
def lowerChar (c : Char) : Char :=
  if 'A' ≤ c ∧ c ≤ 'Z' then Char.ofNat (c.toNat + 32) else c

/-- Lower-cased character list of a string, modelling `str.lower()`. -/
def lowerData (s : String) : List Char :=
  s.data.map lowerChar

/-- Line 51 of the source: `any(termo.lower() in str(mov).lower() for termo
in movimentos_arquivamento)` — case-insensitive substring match, OR across
the term list. -/
def anyTermMatches (terms : List String) (mov : String) : Bool :=
  terms.any (fun termo => containsL (lowerData termo) (lowerData mov))

/-- A raw input row after column projection: the three selected cells, as
text (`numero_processo` already coerced to text by `astype(str)`). -/
structure RowIn where
  processo : String
  movimento : String
  data : String
deriving DecidableEq, Repr

/-- A row that survived date parsing: the standardized columns of
`df_analise` after `dropna(subset=['data_movimento'])`. -/
structure ValidRow where
  numero_processo : String
  tipo_movimento : String
  data_movimento : Date
deriving DecidableEq, Repr

/-- Strip leading and trailing whitespace (models `str.strip()`). -/
def trimChars (l : List Char) : List Char :=
  ((l.dropWhile Char.isWhitespace).reverse.dropWhile Char.isWhitespace).reverse

/-- Lines 27-32 of the source applied to one row: strip the movement text,
parse the date day-first; a row whose date coerced to `NaT` is dropped. -/
def toValidRow (r : RowIn) : Option ValidRow :=
  match parseDateDayFirst r.data with
  | none => none
  | some d => some ⟨r.processo, ⟨trimChars r.movimento.data⟩, d⟩

/-- The rows of `df_analise` after cleaning and `dropna`. -/
def validRows (rows : List RowIn) : List ValidRow :=
  rows.filterMap toValidRow

/-- Insert into a list in front of the first element that is `le`-above the
inserted one.  Together with `sortLe` this is a stable insertion sort, the
behaviour of numpy's ascending argsort on the small arrays at stake. -/
def insertLe (le : α → α → Bool) (a : α) : List α → List α
  | [] => [a]
  | x :: xs => if le a x then a :: x :: xs else x :: insertLe le a xs

/-- Stable ascending sort by `le`. -/
def sortLe (le : α → α → Bool) : List α → List α
  | [] => []
  | x :: xs => insertLe le x (sortLe le xs)

/-- Reference description of the row selected by `sort_values(...,
ascending=False)` followed by `iloc[0]`: a linear scan keeping the
best-so-far element, replacing it on ties — so among rows sharing the
maximal key the scan keeps the one occurring last.  Proved below to equal
the last element of the stable ascending sort. -/
def ultimoRec (le : α → α → Bool) : List α → Option α
  | [] => none
  | a :: l =>
    match ultimoRec le l with
    | none => some a
    | some b => if le a b then some b else some a

/-- Comparison of valid rows by their `data_movimento`, the sort key of
`sort_values(by='data_movimento')`. -/
def rowLe (a b : ValidRow) : Bool :=
  decide (Date.le a.data_movimento b.data_movimento)

/-- Code-point comparison of strings (Python `<=` on `str`), via the
character codes. -/
def lexLeN : List Nat → List Nat → Bool
  | [], _ => true
  | _ :: _, [] => false
  | a :: as, b :: bs => if a = b then lexLeN as bs else decide (a < b)

/-- String order used by pandas when sorting `groupby` keys. -/
def strLe (a b : String) : Bool :=
  lexLeN (a.data.map Char.toNat) (b.data.map Char.toNat)

/-- The sorted, duplicate-free group keys produced by
`df_analise.groupby('numero_processo')` (pandas sorts keys by default). -/
def sortedKeys (valid : List ValidRow) : List String :=
  sortLe strLe ((valid.map (fun r => r.numero_processo)).dedup)

/-- The rows of one `groupby` group, in original row order (pandas
preserves the within-group order of the frame). -/
def grupo (valid : List ValidRow) (k : String) : List ValidRow :=
  valid.filter (fun r => decide (r.numero_processo = k))

/-- Lines 45-48: `movimentos.sort_values(by='data_movimento',
ascending=False)` then `iloc[0]`.  pandas reverses an ascending stable
argsort for `ascending=False`, so the selected row is the head of the
reversed stable ascending sort. -/
def ultimoMovimento? (g : List ValidRow) : Option ValidRow :=
  ((sortLe rowLe g).reverse).head?

/-- One entry of `detalhes_arquivados` (lines 53-57): case number, the
selected movement's original text, and the date rendered `%d/%m/%Y`. -/
structure Detail where
  numero : String
  ultimo : String
  dataArq : String
deriving DecidableEq, Repr

/-- Builds the detail dict of lines 53-57 from the selected row. -/
def mkDetail (u : ValidRow) : Detail :=
  ⟨u.numero_processo, u.tipo_movimento, strftimeDMY u.data_movimento⟩

/-- One iteration of the loop of lines 44-57 for group key `k`: pick the
most recent movement; if some term is contained in its text produce the
appended pair (case id, detail entry), otherwise nothing. -/
def processKey (valid : List ValidRow) (terms : List String) (k : String) :
    Option (String × Detail) :=
  match ultimoMovimento? (grupo valid k) with
  | none => none
  | some u =>
    if anyTermMatches terms u.tipo_movimento then some (k, mkDetail u)
    else none

/-- The loop of lines 38-57 over the cleaned rows: fold over the sorted
group keys, appending to `processos_arquivados` and `detalhes_arquivados`
exactly when the group's most recent movement matches a term. -/
def classifyValid (valid : List ValidRow) (terms : List String) :
    List String × List Detail :=
  (sortedKeys valid).foldl
    (fun acc k =>
      match processKey valid terms k with
      | none => acc
      | some pd => (acc.1 ++ [pd.1], acc.2 ++ [pd.2]))
    ([], [])

/-- The happy path of `analisar_processos` on already-projected rows:
clean/parse/drop (lines 26-32), then the classification loop. -/
def classify (rows : List RowIn) (terms : List String) :
    List String × List Detail :=
  classifyValid (validRows rows) terms

/-- The tabular dataset handed to the classifier: named columns and rows of
text cells. -/
structure DataFrame where
  columns : List String
  rows : List (List String)
deriving DecidableEq, Repr

/-- Position of a column name in the header, if present. -/
def colIdx : List String → String → Option Nat
  | [], _ => none
  | c :: cs, col => if c = col then some 0 else (colIdx cs col).map (· + 1)

/-- The values of one named column of the frame (the basis of
`df[col_processo]` on line 135). -/
def getColumn (df : DataFrame) (col : String) : List String :=
  match colIdx df.columns col with
  | none => []
  | some i => df.rows.map (fun r => r.getD i "")

/-- Line 21: `df[[col_processo, col_movimento, col_data]]` — project each
row to the three mapped columns; a missing column raises `KeyError`. -/
def project (df : DataFrame) (cp cm cd : String) : Except String (List RowIn) :=
  match colIdx df.columns cp, colIdx df.columns cm, colIdx df.columns cd with
  | some i, some j, some k =>
    Except.ok (df.rows.map (fun r => ⟨r.getD i "", r.getD j "", r.getD k ""⟩))
  | _, _, _ => Except.error "KeyError"

/-- The whole of `analisar_processos` (lines 14-60): the `try` block
projects and cleans; an exception there is caught, displays an error via
`st.error` (first component) and returns the empty pair; otherwise no error
is displayed and the classification runs.  The second component is the
value returned to the caller in either case. -/
def analisar_processos (df : DataFrame) (cp cm cd : String)
    (terms : List String) : Option String × (List String × List Detail) :=
  match project df cp cm cd with
  | Except.error e => (some e, ([], []))
  | Except.ok rows => (none, classify rows terms)

/-- Line 135: `df[col_processo].nunique()` — the number of distinct values
of the original, unfiltered case-identifier column. -/
def total_processos_unicos (df : DataFrame) (cp : String) : Nat :=
  ((getColumn df cp).dedup).length

/-- Outcome of the app flow around the classifier (lines 127-136): either
the duplicate-mapping guard fires (line 128, the analysis never runs), or
the analysis ran, with the displayed error (if any), the returned archived
list and detail rows, and the separately computed unique-case metric. -/
inductive AppOutcome where
  | mappingError : AppOutcome
  | ran : Option String → List String → List Detail → Nat → AppOutcome
deriving DecidableEq, Repr

/-- Lines 127-136: `len(set([c1,c2,c3])) < 3` aborts with an error before
the analysis; otherwise `analisar_processos` runs and
`total_processos_unicos` is computed over the raw frame. -/
def appRun (df : DataFrame) (cp cm cd : String) (terms : List String) :
    AppOutcome :=
  if cp = cm ∨ cp = cd ∨ cm = cd then AppOutcome.mappingError
  else
    AppOutcome.ran
      (analisar_processos df cp cm cd terms).1
      (analisar_processos df cp cm cd terms).2.1
      (analisar_processos df cp cm cd terms).2.2
      (total_processos_unicos df cp)

/-! ### Lemmas about the stable insertion sort and the selected row -/

theorem insertLe_ne_nil (le : α → α → Bool) (a : α) (l : List α) :
    insertLe le a l ≠ [] := by
  cases l with
  | nil => simp [insertLe]
  | cons x xs =>
    simp only [insertLe]
    split <;> simp

theorem mem_insertLe {le : α → α → Bool} {a x : α} {l : List α} :
    x ∈ insertLe le a l ↔ x = a ∨ x ∈ l := by
  induction l with
  | nil => simp [insertLe]
  | cons y ys ih =>
    simp only [insertLe]
    split
    · simp [List.mem_cons]
    · simp only [List.mem_cons, ih]
      tauto

theorem insertLe_perm (le : α → α → Bool) (a : α) (l : List α) :
    List.Perm (insertLe le a l) (a :: l) := by
  induction l with
  | nil => simp [insertLe]
  | cons y ys ih =>
    simp only [insertLe]
    split
    · exact List.Perm.refl _
    · exact List.Perm.trans (ih.cons y) (List.Perm.swap a y ys)

theorem sortLe_perm (le : α → α → Bool) (l : List α) :
    List.Perm (sortLe le l) l := by
  induction l with
  | nil => exact List.Perm.refl _
  | cons x xs ih =>
    exact List.Perm.trans (insertLe_perm le x (sortLe le xs)) (ih.cons x)

theorem pairwise_insertLe {le : α → α → Bool}
    (htot : ∀ a b, le a b = true ∨ le b a = true)
    (htrans : ∀ a b c, le a b = true → le b c = true → le a c = true)
    (a : α) {l : List α} (hl : l.Pairwise (fun x y => le x y = true)) :
    (insertLe le a l).Pairwise (fun x y => le x y = true) := by
  induction l with
  | nil => simp [insertLe]
  | cons x xs ih =>
    rcases List.pairwise_cons.1 hl with ⟨hx, hxs⟩
    simp only [insertLe]
    split
    · rename_i h
      refine List.pairwise_cons.2 ⟨?_, hl⟩
      intro b hb
      rcases List.mem_cons.1 hb with hb | hb
      · exact hb ▸ h
      · exact htrans a x b h (hx b hb)
    · rename_i h
      have h2 : le x a = true := by
        rcases htot a x with h3 | h3
        · exact absurd h3 h
        · exact h3
      refine List.pairwise_cons.2 ⟨?_, ih hxs⟩
      intro b hb
      rcases mem_insertLe.1 hb with hb | hb
      · exact hb ▸ h2
      · exact hx b hb

theorem pairwise_sortLe {le : α → α → Bool}
    (htot : ∀ a b, le a b = true ∨ le b a = true)
    (htrans : ∀ a b c, le a b = true → le b c = true → le a c = true)
    (l : List α) :
    (sortLe le l).Pairwise (fun x y => le x y = true) := by
  induction l with
  | nil => simp [sortLe]
  | cons x xs ih => exact pairwise_insertLe htot htrans x ih

theorem mem_of_getLast?_eq_some {l : List α} {a : α}
    (h : l.getLast? = some a) : a ∈ l := by
  induction l with
  | nil => simp at h
  | cons x xs ih =>
    cases xs with
    | nil =>
      simp only [List.getLast?_singleton, Option.some.injEq] at h
      simp [h]
    | cons y ys =>
      rw [List.getLast?_cons_cons] at h
      exact List.mem_cons_of_mem x (ih h)

theorem getLast?_insertLe {le : α → α → Bool}
    (htrans : ∀ a b c, le a b = true → le b c = true → le a c = true)
    (a : α) {l : List α} (hl : l.Pairwise (fun x y => le x y = true)) :
    (insertLe le a l).getLast? =
      some (match l.getLast? with
            | none => a
            | some b => if le a b then b else a) := by
  induction l with
  | nil => simp [insertLe]
  | cons x xs ih =>
    rcases List.pairwise_cons.1 hl with ⟨hx, hxs⟩
    simp only [insertLe]
    split
    · rename_i h
      rw [List.getLast?_cons_cons]
      cases hgl : (x :: xs).getLast? with
      | none => simp at hgl
      | some b =>
        have hb : b ∈ x :: xs := mem_of_getLast?_eq_some hgl
        have hab : le a b = true := by
          rcases List.mem_cons.1 hb with hb2 | hb2
          · exact hb2 ▸ h
          · exact htrans a x b h (hx b hb2)
        simp [hab]
    · rename_i h
      cases xs with
      | nil =>
        simp only [insertLe]
        simp [h]
      | cons y ys =>
        have hne := insertLe_ne_nil le a (y :: ys)
        have hstep : (x :: insertLe le a (y :: ys)).getLast? =
            (insertLe le a (y :: ys)).getLast? := by
          cases hi : insertLe le a (y :: ys) with
          | nil => exact absurd hi hne
          | cons c cs => exact List.getLast?_cons_cons
        rw [hstep, ih hxs, List.getLast?_cons_cons]

theorem getLast?_sortLe {le : α → α → Bool}
    (htot : ∀ a b, le a b = true ∨ le b a = true)
    (htrans : ∀ a b c, le a b = true → le b c = true → le a c = true)
    (l : List α) :
    (sortLe le l).getLast? = ultimoRec le l := by
  induction l with
  | nil => rfl
  | cons x xs ih =>
    have hs := pairwise_sortLe htot htrans xs
    rw [show sortLe le (x :: xs) = insertLe le x (sortLe le xs) from rfl,
      getLast?_insertLe htrans x hs, ih]
    cases hrec : ultimoRec le xs with
    | none => simp [ultimoRec, hrec]
    | some b =>
      simp only [ultimoRec, hrec]
      by_cases hxb : le x b = true <;> simp [hxb]

theorem ultimoRec_mem {le : α → α → Bool} :
    ∀ {l : List α} {b : α}, ultimoRec le l = some b → b ∈ l := by
  intro l
  induction l with
  | nil => intro b h; simp [ultimoRec] at h
  | cons a t ih =>
    intro b h
    simp only [ultimoRec] at h
    cases hrec : ultimoRec le t with
    | none =>
      rw [hrec] at h
      simp at h
      simp [h]
    | some c =>
      rw [hrec] at h
      by_cases hle : le a c = true
      · simp [hle] at h
        exact List.mem_cons_of_mem a (h ▸ ih hrec)
      · simp [hle] at h
        simp [h]

theorem ultimoRec_strictMax {le : α → α → Bool} {l : List α} {u : α}
    (hu : u ∈ l)
    (hmax : ∀ r ∈ l, r ≠ u → (le r u = true ∧ le u r = false)) :
    ultimoRec le l = some u := by
  induction l with
  | nil => simp at hu
  | cons a t ih =>
    by_cases ha : a = u
    · subst ha
      cases hrec : ultimoRec le t with
      | none => simp [ultimoRec, hrec]
      | some b =>
        have hb : b ∈ t := ultimoRec_mem hrec
        by_cases hba : b = a
        · subst hba
          simp only [ultimoRec, hrec]
          split <;> rfl
        · have hh := hmax b (List.mem_cons_of_mem a hb) hba
          simp [ultimoRec, hrec, hh.2]
    · have hut : u ∈ t := by
        rcases List.mem_cons.1 hu with h | h
        · exact absurd h.symm ha
        · exact h
      have hrec := ih hut (fun r hr hru => hmax r (List.mem_cons_of_mem a hr) hru)
      have hh := hmax a (List.mem_cons_self a t) ha
      simp [ultimoRec, hrec, hh.1]

theorem ultimoRec_lastMax {le : α → α → Bool} {l1 l2 : List α} {u : α}
    (h1 : ∀ r ∈ l1, le r u = true)
    (h2 : ∀ r ∈ l2, le r u = true ∧ le u r = false) :
    ultimoRec le (l1 ++ u :: l2) = some u := by
  induction l1 with
  | nil =>
    rw [List.nil_append]
    cases hrec : ultimoRec le l2 with
    | none => simp [ultimoRec, hrec]
    | some b =>
      have hb : b ∈ l2 := ultimoRec_mem hrec
      simp [ultimoRec, hrec, (h2 b hb).2]
  | cons a t ih =>
    have hrec := ih (fun r hr => h1 r (List.mem_cons_of_mem a hr))
    rw [List.cons_append]
    simp [ultimoRec, hrec, h1 a (List.mem_cons_self a t)]

/-! ### The comparison functions are total preorders -/

theorem rowLe_total (a b : ValidRow) : rowLe a b = true ∨ rowLe b a = true := by
  unfold rowLe
  rcases Date.le_total a.data_movimento b.data_movimento with h | h
  · left; exact decide_eq_true h
  · right; exact decide_eq_true h

theorem rowLe_trans (a b c : ValidRow) (h1 : rowLe a b = true)
    (h2 : rowLe b c = true) : rowLe a c = true := by
  unfold rowLe at *
  exact decide_eq_true (Date.le_trans (of_decide_eq_true h1) (of_decide_eq_true h2))

theorem lexLeN_total (x : List Nat) : ∀ y, lexLeN x y = true ∨ lexLeN y x = true := by
  induction x with
  | nil => intro y; left; rfl
  | cons a as ih =>
    intro y
    cases y with
    | nil => right; rfl
    | cons b bs =>
      by_cases hab : a = b
      · subst hab
        simp only [lexLeN, if_pos rfl]
        exact ih bs
      · have hba : b ≠ a := Ne.symm hab
        simp only [lexLeN, if_neg hab, if_neg hba]
        rcases Nat.lt_or_ge a b with h | h
        · left; exact decide_eq_true h
        · right
          exact decide_eq_true (Nat.lt_of_le_of_ne h hba)

theorem lexLeN_trans (x : List Nat) :
    ∀ y z, lexLeN x y = true → lexLeN y z = true → lexLeN x z = true := by
  induction x with
  | nil => intro y z _ _; rfl
  | cons a as ih =>
    intro y z hxy hyz
    cases y with
    | nil => simp [lexLeN] at hxy
    | cons b bs =>
      cases z with
      | nil => simp [lexLeN] at hyz
      | cons c cs =>
        by_cases hab : a = b <;> by_cases hbc : b = c
        · subst hab; subst hbc
          simp only [lexLeN, if_pos rfl] at *
          exact ih bs cs hxy hyz
        · subst hab
          simp only [lexLeN, if_pos rfl, if_neg hbc] at *
          exact hyz
        · subst hbc
          simp only [lexLeN, if_neg hab] at *
          exact hxy
        · simp only [lexLeN, if_neg hab, if_neg hbc] at hxy hyz
          have h1 := of_decide_eq_true hxy
          have h2 := of_decide_eq_true hyz
          have hac : a ≠ c := by omega
          simp only [lexLeN, if_neg hac]
          exact decide_eq_true (Nat.lt_trans h1 h2)

theorem strLe_total (a b : String) : strLe a b = true ∨ strLe b a = true :=
  lexLeN_total _ _

theorem strLe_trans (a b c : String) (h1 : strLe a b = true)
    (h2 : strLe b c = true) : strLe a c = true :=
  lexLeN_trans _ _ _ h1 h2

/-! ### Characterizing the classification loop -/

/-- The selected row of a group is the last-among-ties maximum-date row of
the original within-group order. -/
theorem ultimoMovimento?_eq (g : List ValidRow) :
    ultimoMovimento? g = ultimoRec rowLe g := by
  unfold ultimoMovimento?
  rw [List.head?_reverse]
  exact getLast?_sortLe rowLe_total rowLe_trans g

theorem foldl_appendPairs (f : String → Option (String × Detail)) :
    ∀ (ks : List String) (a : List String) (b : List Detail),
    ks.foldl
      (fun acc k =>
        match f k with
        | none => acc
        | some pd => (acc.1 ++ [pd.1], acc.2 ++ [pd.2]))
      (a, b) =
      (a ++ (ks.filterMap f).map Prod.fst, b ++ (ks.filterMap f).map Prod.snd) := by
  intro ks
  induction ks with
  | nil => intro a b; simp
  | cons k ks ih =>
    intro a b
    simp only [List.foldl_cons, List.filterMap_cons]
    cases hf : f k with
    | none => simp [ih a b]
    | some pd =>
      rw [ih (a ++ [pd.1]) (b ++ [pd.2])]
      simp

theorem classifyValid_eq (valid : List ValidRow) (terms : List String) :
    classifyValid valid terms =
      (((sortedKeys valid).filterMap (processKey valid terms)).map Prod.fst,
       ((sortedKeys valid).filterMap (processKey valid terms)).map Prod.snd) := by
  have h := foldl_appendPairs (processKey valid terms) (sortedKeys valid) [] []
  simp only [List.nil_append] at h
  exact h

theorem processKey_eq_none (valid : List ValidRow) (terms : List String)
    (k : String) (hu : ultimoMovimento? (grupo valid k) = none) :
    processKey valid terms k = none := by
  unfold processKey
  rw [hu]

theorem processKey_eq_some (valid : List ValidRow) (terms : List String)
    (k : String) (u : ValidRow)
    (hu : ultimoMovimento? (grupo valid k) = some u) :
    processKey valid terms k =
      if anyTermMatches terms u.tipo_movimento = true then some (k, mkDetail u)
      else none := by
  unfold processKey
  rw [hu]

/-- The selected row of a group belongs to the group, hence carries the
group key as its case id. -/
theorem ultimo_mem_grupo {valid : List ValidRow} {k : String} {u : ValidRow}
    (hu : ultimoMovimento? (grupo valid k) = some u) :
    u ∈ valid ∧ u.numero_processo = k := by
  rw [ultimoMovimento?_eq] at hu
  have humem : u ∈ grupo valid k := ultimoRec_mem hu
  have h2 := List.mem_filter.1 humem
  exact ⟨h2.1, of_decide_eq_true h2.2⟩

/-- Every produced pair carries its group key as case id, and the detail
entry's case id agrees. -/
theorem processKey_some {valid : List ValidRow} {terms : List String}
    {k : String} {pd : String × Detail}
    (h : processKey valid terms k = some pd) :
    pd.1 = k ∧ pd.2.numero = k ∧
      ∃ u, ultimoMovimento? (grupo valid k) = some u ∧
        anyTermMatches terms u.tipo_movimento = true ∧ pd.2 = mkDetail u := by
  cases hu : ultimoMovimento? (grupo valid k) with
  | none =>
    rw [processKey_eq_none valid terms k hu] at h
    simp at h
  | some u =>
    rw [processKey_eq_some valid terms k u hu] at h
    by_cases hm : anyTermMatches terms u.tipo_movimento = true
    · rw [if_pos hm] at h
      have hpd : pd = (k, mkDetail u) := by
        injection h with h2
        exact h2.symm
      subst hpd
      have hnum : u.numero_processo = k := (ultimo_mem_grupo hu).2
      exact ⟨rfl, hnum, u, rfl, hm, rfl⟩

    · rw [if_neg hm] at h
      simp at h

theorem mem_grupo {valid : List ValidRow} {k : String} {r : ValidRow} :
    r ∈ grupo valid k ↔ r ∈ valid ∧ r.numero_processo = k := by
  unfold grupo
  rw [List.mem_filter]
  simp

theorem mem_sortedKeys {valid : List ValidRow} {k : String} :
    k ∈ sortedKeys valid ↔ ∃ r ∈ valid, r.numero_processo = k := by
  unfold sortedKeys
  rw [(sortLe_perm strLe _).mem_iff, List.mem_dedup, List.mem_map]

theorem nodup_sortedKeys (valid : List ValidRow) : (sortedKeys valid).Nodup :=
  (sortLe_perm strLe _).symm.nodup (List.nodup_dedup _)

theorem pairwise_sortedKeys (valid : List ValidRow) :
    (sortedKeys valid).Pairwise (fun a b => strLe a b = true) :=
  pairwise_sortLe strLe_total strLe_trans _

theorem map_fst_filterMap_processKey (valid : List ValidRow)
    (terms : List String) (ks : List String) :
    (ks.filterMap (processKey valid terms)).map Prod.fst =
      ks.filter (fun k => (processKey valid terms k).isSome) := by
  induction ks with
  | nil => rfl
  | cons k ks ih =>
    simp only [List.filterMap_cons, List.filter_cons]
    cases hf : processKey valid terms k with
    | none => simp [hf, ih]
    | some pd =>
      have hk := (processKey_some hf).1
      simp [hf, ih, hk]

theorem mem_archived_iff {valid : List ValidRow} {terms : List String}
    {k : String} :
    k ∈ (classifyValid valid terms).1 ↔
      k ∈ sortedKeys valid ∧ (processKey valid terms k).isSome = true := by
  rw [classifyValid_eq, map_fst_filterMap_processKey, List.mem_filter]

/-- Facts recovered from one surviving row: the case id is the raw row's
`processo` cell and its date text parsed. -/
theorem toValidRow_some {r0 : RowIn} {r : ValidRow}
    (h : toValidRow r0 = some r) :
    r.numero_processo = r0.processo ∧ (parseDateDayFirst r0.data).isSome = true := by
  unfold toValidRow at h
  cases hp : parseDateDayFirst r0.data with
  | none => rw [hp] at h; simp at h
  | some d =>
    rw [hp] at h
    injection h with h2
    subst h2
    exact ⟨rfl, rfl⟩

/-- The archived list is the sorted group keys filtered to the matching
cases. -/
theorem archived_eq_filter (rows : List RowIn) (terms : List String) :
    (classify rows terms).1 =
      (sortedKeys (validRows rows)).filter
        (fun k => (processKey (validRows rows) terms k).isSome) := by
  unfold classify
  rw [classifyValid_eq]
  exact map_fst_filterMap_processKey _ _ _

/-- Each detail entry's case id is the archived id emitted alongside it. -/
theorem details_map_numero (valid : List ValidRow) (terms : List String)
    (ks : List String) :
    ((ks.filterMap (processKey valid terms)).map Prod.snd).map Detail.numero =
      (ks.filterMap (processKey valid terms)).map Prod.fst := by
  induction ks with
  | nil => rfl
  | cons k ks ih =>
    simp only [List.filterMap_cons]
    cases hf : processKey valid terms k with
    | none => exact ih
    | some pd =>
      obtain ⟨h1, h2, _⟩ := processKey_some hf
      simp [h1, h2, ih]

/-- Rows whose date text fails to parse contribute nothing to the cleaned
frame: filtering them away first changes nothing. -/
theorem validRows_filter (rows : List RowIn) :
    validRows (rows.filter (fun r => (parseDateDayFirst r.data).isSome)) =
      validRows rows := by
  induction rows with
  | nil => rfl
  | cons r rs ih =>
    unfold validRows at *
    rw [List.filter_cons]
    cases hp : parseDateDayFirst r.data with
    | none =>
      have ht : toValidRow r = none := by unfold toValidRow; rw [hp]
      simp [hp, ht, ih]
    | some d =>
      have ht : toValidRow r = some ⟨r.processo, ⟨trimChars r.movimento.data⟩, d⟩ := by
        unfold toValidRow; rw [hp]
      simp [hp, ht, List.filterMap_cons, ih]

theorem colIdx_eq_none {cols : List String} {c : String} :
    colIdx cols c = none ↔ c ∉ cols := by
  induction cols with
  | nil => simp [colIdx]
  | cons x xs ih =>
    by_cases hx : x = c
    · subst hx
      simp [colIdx]
    · have hcx : c ≠ x := fun e => hx e.symm
      simp [colIdx, hx, hcx, ih]

theorem mem_of_colIdx_some {cols : List String} {c : String} {i : Nat}
    (h : colIdx cols c = some i) : c ∈ cols := by
  by_contra hc
  rw [← colIdx_eq_none] at hc
  rw [hc] at h
  exact Option.noConfusion h

/-! ### The claims -/

/-- C1: for every case with at least one date-parseable row whose most
recent valid row is unambiguous (its date strictly dominates every other
row of the case), the case is archived iff the movement_type of that row
contains, case-insensitively, some term of the term list; earlier
movements of the case have no effect on the outcome. -/
theorem claim_C1 (rows : List RowIn) (terms : List String) (k : String)
    (u : ValidRow) (hu : u ∈ validRows rows) (hid : u.numero_processo = k)
    (hmax : ∀ r ∈ validRows rows, r.numero_processo = k → r ≠ u →
      Date.lt r.data_movimento u.data_movimento) :
    k ∈ (classify rows terms).1 ↔
      anyTermMatches terms u.tipo_movimento = true := by
  have hgu : u ∈ grupo (validRows rows) k := mem_grupo.2 ⟨hu, hid⟩
  have hsel : ultimoMovimento? (grupo (validRows rows) k) = some u := by
    rw [ultimoMovimento?_eq]
    apply ultimoRec_strictMax hgu
    intro r hr hru
    have hmm := mem_grupo.1 hr
    have hlt := hmax r hmm.1 hmm.2 hru
    refine ⟨?_, ?_⟩
    · unfold rowLe; exact decide_eq_true (Date.le_of_lt hlt)
    · unfold rowLe; exact decide_eq_false (Date.not_le_of_lt hlt)
  have hkk : k ∈ sortedKeys (validRows rows) := mem_sortedKeys.2 ⟨u, hu, hid⟩
  unfold classify
  rw [mem_archived_iff, processKey_eq_some _ terms k u hsel]
  by_cases hm : anyTermMatches terms u.tipo_movimento = true <;> simp [hm, hkk]

/-- C1 witness: in the two-row scenario for case P1 the later, strictly
more recent movement matches the term, so P1 is archived. -/
theorem claim_C1_witness :
    "P1" ∈ (classify
      [⟨"P1", "Remessa aos autos", "01/01/2024"⟩,
       ⟨"P1", "Arquivado Definitivamente", "05/01/2024"⟩]
      ["Arquivado Definitivamente"]).1 :=
  (claim_C1
    [⟨"P1", "Remessa aos autos", "01/01/2024"⟩,
     ⟨"P1", "Arquivado Definitivamente", "05/01/2024"⟩]
    ["Arquivado Definitivamente"] "P1"
    ⟨"P1", "Arquivado Definitivamente", ⟨2024, 1, 5⟩⟩
    (by decide) (by decide) (by decide)).mpr (by decide)

/-- C2 counterexample: two rows of case P1 share the identical latest
date; the first-in-input row matches the term, the later one does not.
The claim says the case IS archived (first-seen-on-tie); the code selects
the later tied row (descending sort is a reversed stable ascending sort),
so the case is NOT archived. -/
theorem claim_C2_counterexample :
    ¬ ("P1" ∈ (classify
      [⟨"P1", "Arquivado Definitivamente", "05/01/2024"⟩,
       ⟨"P1", "Remessa aos autos", "05/01/2024"⟩]
      ["Arquivado Definitivamente"]).1) := by decide

/-- C2 (amended): under ties on the maximal movement date the classifier
deterministically selects the tied row that appears LAST in the original,
pre-sort input order: if the group of case `k` splits as `l1 ++ u :: l2`
with everything in `l1` dated at most `u` and everything in `l2` dated
strictly before `u`, the case is archived iff `u` matches a term. -/
theorem claim_C2 (rows : List RowIn) (terms : List String) (k : String)
    (u : ValidRow) (l1 l2 : List ValidRow)
    (hsplit : grupo (validRows rows) k = l1 ++ u :: l2)
    (h1 : ∀ r ∈ l1, Date.le r.data_movimento u.data_movimento)
    (h2 : ∀ r ∈ l2, Date.lt r.data_movimento u.data_movimento) :
    k ∈ (classify rows terms).1 ↔
      anyTermMatches terms u.tipo_movimento = true := by
  have hgu : u ∈ grupo (validRows rows) k := by
    rw [hsplit]
    exact List.mem_append_right _ (List.mem_cons_self u l2)
  have hmem := mem_grupo.1 hgu
  have hsel : ultimoMovimento? (grupo (validRows rows) k) = some u := by
    rw [ultimoMovimento?_eq, hsplit]
    apply ultimoRec_lastMax
    · intro r hr
      unfold rowLe
      exact decide_eq_true (h1 r hr)
    · intro r hr
      refine ⟨?_, ?_⟩
      · unfold rowLe; exact decide_eq_true (Date.le_of_lt (h2 r hr))
      · unfold rowLe; exact decide_eq_false (Date.not_le_of_lt (h2 r hr))
  have hkk : k ∈ sortedKeys (validRows rows) := mem_sortedKeys.2 ⟨u, hmem.1, hmem.2⟩
  unfold classify
  rw [mem_archived_iff, processKey_eq_some _ terms k u hsel]
  by_cases hm : anyTermMatches terms u.tipo_movimento = true <;> simp [hm, hkk]

/-- C2 witness: with the matching row last among the tied rows, the case
is archived. -/
theorem claim_C2_witness :
    "P1" ∈ (classify
      [⟨"P1", "Remessa aos autos", "05/01/2024"⟩,
       ⟨"P1", "Arquivado Definitivamente", "05/01/2024"⟩]
      ["Arquivado Definitivamente"]).1 :=
  (claim_C2
    [⟨"P1", "Remessa aos autos", "05/01/2024"⟩,
     ⟨"P1", "Arquivado Definitivamente", "05/01/2024"⟩]
    ["Arquivado Definitivamente"] "P1"
    ⟨"P1", "Arquivado Definitivamente", ⟨2024, 1, 5⟩⟩
    [⟨"P1", "Remessa aos autos", ⟨2024, 1, 5⟩⟩] []
    (by decide) (by decide) (by decide)).mpr (by decide)

/-- C3: if the three mapped columns are not pairwise distinct, or a mapped
column is missing from the dataset, the run surfaces a configuration error
and produces no (partial) classification output: either the
duplicate-mapping guard aborts before the classifier runs, or the
classifier's exception handler displays the error and returns the empty
pair. -/
theorem claim_C3 (df : DataFrame) (cp cm cd : String) (terms : List String)
    (h : (cp = cm ∨ cp = cd ∨ cm = cd) ∨
      ¬ (cp ∈ df.columns ∧ cm ∈ df.columns ∧ cd ∈ df.columns)) :
    appRun df cp cm cd terms = AppOutcome.mappingError ∨
      ∃ msg, appRun df cp cm cd terms =
        AppOutcome.ran (some msg) [] [] (total_processos_unicos df cp) := by
  by_cases hdup : cp = cm ∨ cp = cd ∨ cm = cd
  · left
    unfold appRun
    rw [if_pos hdup]
  · right
    have hmiss := h.resolve_left hdup
    have hproj : ∃ e, project df cp cm cd = Except.error e := by
      unfold project
      cases hcp : colIdx df.columns cp with
      | none => exact ⟨"KeyError", rfl⟩
      | some i =>
        cases hcm : colIdx df.columns cm with
        | none => exact ⟨"KeyError", rfl⟩
        | some j =>
          cases hcd : colIdx df.columns cd with
          | none => exact ⟨"KeyError", rfl⟩
          | some l =>
            exact absurd ⟨mem_of_colIdx_some hcp, mem_of_colIdx_some hcm,
              mem_of_colIdx_some hcd⟩ hmiss
    obtain ⟨e, he⟩ := hproj
    refine ⟨e, ?_⟩
    unfold appRun analisar_processos
    rw [if_neg hdup, he]

/-- C3 witness: selecting the same column twice yields the
duplicate-mapping outcome (or the error outcome), never results. -/
theorem claim_C3_witness :
    appRun ⟨["a", "b"], []⟩ "a" "a" "b" [] = AppOutcome.mappingError ∨
      ∃ msg, appRun ⟨["a", "b"], []⟩ "a" "a" "b" [] =
        AppOutcome.ran (some msg) [] []
          (total_processos_unicos ⟨["a", "b"], []⟩ "a") :=
  claim_C3 ⟨["a", "b"], []⟩ "a" "a" "b" [] (Or.inl (Or.inl rfl))

/-- C4: rows whose date text fails to parse are silently excluded — the
classification of the filtered dataset equals that of the full one — and a
case all of whose rows fail date parsing is excluded entirely: it is not
archived and no detail entry carries its id.  (The embedding is a total
function, so no error is raised on such rows.) -/
theorem claim_C4 (rows : List RowIn) (terms : List String) (k : String)
    (h : ∀ r ∈ rows, r.processo = k → parseDateDayFirst r.data = none) :
    classify (rows.filter (fun r => (parseDateDayFirst r.data).isSome)) terms
        = classify rows terms
      ∧ k ∉ (classify rows terms).1
      ∧ ∀ d ∈ (classify rows terms).2, d.numero ≠ k := by
  have hknot : k ∉ sortedKeys (validRows rows) := by
    intro hk
    obtain ⟨r, hr, hid⟩ := mem_sortedKeys.1 hk
    obtain ⟨r0, hr0, hto⟩ := List.mem_filterMap.1 hr
    obtain ⟨hnum, hp⟩ := toValidRow_some hto
    have hnone := h r0 hr0 (by rw [← hnum, hid])
    rw [hnone] at hp
    simp at hp
  refine ⟨?_, ?_, ?_⟩
  · unfold classify
    rw [validRows_filter]
  · intro hk
    unfold classify at hk
    exact hknot (mem_archived_iff.1 hk).1
  · intro d hd hdk
    unfold classify at hd
    rw [classifyValid_eq] at hd
    obtain ⟨pd, hpd, hsnd⟩ := List.mem_map.1 hd
    obtain ⟨k2, hk2, hf⟩ := List.mem_filterMap.1 hpd
    obtain ⟨-, h2, -⟩ := processKey_some hf
    rw [hsnd] at h2
    rw [hdk] at h2
    exact hknot (h2 ▸ hk2)

/-- C4 witness: a case whose only row has the invalid date 31/13/2024 is
excluded from the archived set. -/
theorem claim_C4_witness :
    "P9" ∉ (classify [⟨"P9", "Qualquer coisa", "31/13/2024"⟩] ["qualquer"]).1 :=
  (claim_C4 [⟨"P9", "Qualquer coisa", "31/13/2024"⟩] ["qualquer"] "P9"
    (by decide)).2.1

/-- C5: an empty term list yields an empty archived set and an empty
result sequence, whatever the dataset. -/
theorem claim_C5 (rows : List RowIn) : classify rows [] = ([], []) := by
  unfold classify
  rw [classifyValid_eq]
  have hnone : ∀ k ∈ sortedKeys (validRows rows),
      processKey (validRows rows) [] k = none := by
    intro k _
    cases hu : ultimoMovimento? (grupo (validRows rows) k) with
    | none => exact processKey_eq_none _ _ _ hu
    | some u =>
      rw [processKey_eq_some _ _ _ _ hu]
      simp [anyTermMatches]
  rw [List.filterMap_eq_nil_iff.2 hnone]
  rfl

/-- C6: the archived list has no duplicate case identifiers, every
archived identifier comes from a date-parseable row of the input, and the
detail entries correspond one-to-one (by case id) to the archived list. -/
theorem claim_C6 (rows : List RowIn) (terms : List String) :
    (classify rows terms).1.Nodup
      ∧ (∀ k ∈ (classify rows terms).1,
          ∃ r ∈ validRows rows, r.numero_processo = k)
      ∧ (classify rows terms).2.map Detail.numero = (classify rows terms).1 := by
  refine ⟨?_, ?_, ?_⟩
  · rw [archived_eq_filter]
    exact (nodup_sortedKeys _).sublist (List.filter_sublist _)
  · intro k hk
    unfold classify at hk
    exact mem_sortedKeys.1 (mem_archived_iff.1 hk).1
  · unfold classify
    rw [classifyValid_eq]
    exact details_map_numero _ _ _

/-- C6 witness: the archived id P1 of a one-row dataset indeed stems from
a valid row of the input. -/
theorem claim_C6_witness :
    ∃ r ∈ validRows [⟨"P1", "Arquivado", "05/01/2024"⟩],
      r.numero_processo = "P1" :=
  (claim_C6 [⟨"P1", "Arquivado", "05/01/2024"⟩] ["arquivado"]).2.1 "P1"
    (by decide)

/-- C7: dates are parsed day-first — "03/04/2024" is day 3 of month 4 —
and the emitted archival date is rendered day/month/year: the record dated
5 January 2024 renders as "05/01/2024", as in the P1 scenario. -/
theorem claim_C7 :
    parseDateDayFirst "03/04/2024" = some ⟨2024, 4, 3⟩
      ∧ strftimeDMY ⟨2024, 1, 5⟩ = "05/01/2024"
      ∧ classify
          [⟨"P1", "Remessa aos autos", "01/01/2024"⟩,
           ⟨"P1", "Arquivado Definitivamente", "05/01/2024"⟩]
          ["Arquivado Definitivamente"] =
        (["P1"], [⟨"P1", "Arquivado Definitivamente", "05/01/2024"⟩]) :=
  ⟨by decide, by decide, by decide⟩

/-- C8: the total-unique-cases metric is computed over the original,
unfiltered case-identifier column: every archived id comes from that raw
column, and on a dataset whose case B has only an unparsable date the
metric still counts B (value 2) while the classifier's cleaned frame
retains only case A. -/
theorem claim_C8 :
    (∀ (df : DataFrame) (cp cm cd : String) (terms : List String)
        (rows : List RowIn),
        project df cp cm cd = Except.ok rows →
        ∀ k ∈ (classify rows terms).1, k ∈ getColumn df cp)
      ∧ total_processos_unicos
          ⟨["processo", "movimento", "data"],
           [["A", "Arquivado Definitivamente", "05/01/2024"],
            ["B", "Arquivado", "31/13/2024"]]⟩ "processo" = 2
      ∧ (validRows
          [⟨"A", "Arquivado Definitivamente", "05/01/2024"⟩,
           ⟨"B", "Arquivado", "31/13/2024"⟩]).map
            (fun r => r.numero_processo) = ["A"] := by
  refine ⟨?_, by decide, by decide⟩
  intro df cp cm cd terms rows hpr k hk
  unfold project at hpr
  cases hcp : colIdx df.columns cp with
  | none => rw [hcp] at hpr; simp at hpr
  | some i =>
    rw [hcp] at hpr
    cases hcm : colIdx df.columns cm with
    | none => rw [hcm] at hpr; simp at hpr
    | some j =>
      rw [hcm] at hpr
      cases hcd : colIdx df.columns cd with
      | none => rw [hcd] at hpr; simp at hpr
      | some l =>
        rw [hcd] at hpr
        simp only [Except.ok.injEq] at hpr
        rw [archived_eq_filter] at hk
        have hkk := (List.mem_filter.1 hk).1
        obtain ⟨r, hr, hid⟩ := mem_sortedKeys.1 hkk
        obtain ⟨r0, hr0, hto⟩ := List.mem_filterMap.1 hr
        obtain ⟨hnum, -⟩ := toValidRow_some hto
        rw [← hpr] at hr0
        obtain ⟨rr, hrr, hre⟩ := List.mem_map.1 hr0
        unfold getColumn
        rw [hcp]
        refine List.mem_map.2 ⟨rr, hrr, ?_⟩
        rw [← hid, hnum, ← hre]

/-- C8 witness: the archived id A of the two-row frame occurs in the raw
case-id column. -/
theorem claim_C8_witness :
    "A" ∈ getColumn
      ⟨["processo", "movimento", "data"],
       [["A", "Arquivado Definitivamente", "05/01/2024"],
        ["B", "Arquivado", "31/13/2024"]]⟩ "processo" :=
  claim_C8.1
    ⟨["processo", "movimento", "data"],
     [["A", "Arquivado Definitivamente", "05/01/2024"],
      ["B", "Arquivado", "31/13/2024"]]⟩
    "processo" "movimento" "data" ["arquivado"]
    [⟨"A", "Arquivado Definitivamente", "05/01/2024"⟩,
     ⟨"B", "Arquivado", "31/13/2024"⟩]
    rfl "A" (by decide)

/-- C9: a run that ends without a displayed error arises only from a
completed classification: its archived list and detail rows are exactly
the classifier's output on the successfully projected rows; an internal
failure always carries a displayed error message. -/
theorem claim_C9 (df : DataFrame) (cp cm cd : String) (terms : List String)
    (a : List String) (d : List Detail) (t : Nat)
    (h : appRun df cp cm cd terms = AppOutcome.ran none a d t) :
    ∃ rows, project df cp cm cd = Except.ok rows ∧
      a = (classify rows terms).1 ∧ d = (classify rows terms).2 := by
  unfold appRun at h
  by_cases hdup : cp = cm ∨ cp = cd ∨ cm = cd
  · rw [if_pos hdup] at h
    exact absurd h (by simp)
  · rw [if_neg hdup] at h
    cases hpr : project df cp cm cd with
    | error e =>
      rw [show analisar_processos df cp cm cd terms = (some e, ([], []))
        from by unfold analisar_processos; rw [hpr]] at h
      simp at h
    | ok rows =>
      rw [show analisar_processos df cp cm cd terms
          = (none, classify rows terms)
        from by unfold analisar_processos; rw [hpr]] at h
      simp only [AppOutcome.ran.injEq] at h
      exact ⟨rows, rfl, h.2.1.symm, h.2.2.1.symm⟩

/-- C9 witness: a successful one-row run is traced back to its projected
rows and classifier output. -/
theorem claim_C9_witness :
    ∃ rows,
      project ⟨["p", "m", "d"], [["P1", "Arquivado", "05/01/2024"]]⟩
          "p" "m" "d" = Except.ok rows ∧
        ["P1"] = (classify rows ["arquivado"]).1 ∧
        [⟨"P1", "Arquivado", "05/01/2024"⟩] = (classify rows ["arquivado"]).2 :=
  claim_C9 ⟨["p", "m", "d"], [["P1", "Arquivado", "05/01/2024"]]⟩
    "p" "m" "d" ["arquivado"] ["P1"] [⟨"P1", "Arquivado", "05/01/2024"⟩] 1
    (by decide)

/-- C10: the archived list is emitted in ascending order of the case
identifier (pandas sorts the group keys), and the i-th detail entry
corresponds to the i-th archived identifier (their case-id projection is
the archived list itself). -/
theorem claim_C10 (rows : List RowIn) (terms : List String) :
    (classify rows terms).1.Pairwise (fun a b => strLe a b = true)
      ∧ (classify rows terms).2.map Detail.numero = (classify rows terms).1 := by
  refine ⟨?_, ?_⟩
  · rw [archived_eq_filter]
    exact (pairwise_sortedKeys _).sublist (List.filter_sublist _)
  · unfold classify
    rw [classifyValid_eq]
    exact details_map_numero _ _ _

